import Mathlib

/-!
# Verification of the awesome-list-view parsing and tag-inheritance core

Shallow embedding of `app/funcs/tag_processor.py` and
`app/funcs/markdown_parser.py`.  Python strings are modelled as `List Char`
(named `Str`); the ASCII fragment of Python's character classes is used
(`\w`, `\s`, `str.lower`, `str.strip`), which covers every input the
repository's documents and tests exercise.  The external YAML library
(`yaml.safe_load`) is not part of the repository; it is modelled as an
abstract decoder parameter (see `Metadata`).
-/

/-- Python strings, modelled as lists of characters. -/
abbrev Str := List Char

/-- Convenience conversion from Lean string literals. -/
def str (s : String) : Str := s.data

/-- Python `\s` / `str.strip()` whitespace, ASCII fragment:
space, tab, newline, carriage return, vertical tab, form feed. -/
def pyIsSpace (c : Char) : Bool :=
  c = ' ' || c = '\t' || c = '\n' || c = '\r' || c = '\x0b' || c = '\x0c'

/-- Drop trailing characters satisfying `p` (used to build `str.strip`). -/
def dropTrailing (p : Char → Bool) (l : Str) : Str :=
  (l.reverse.dropWhile p).reverse

/-- Python `str.strip()` (ASCII whitespace). -/
def pyStrip (l : Str) : Str :=
  dropTrailing pyIsSpace (l.dropWhile pyIsSpace)

/-- Python `str.strip("-")`. -/
def stripHyphens (l : Str) : Str :=
  dropTrailing (· = '-') (l.dropWhile (· = '-'))

/-- Python `str.lower()`, ASCII fragment: map `A`–`Z` (codepoints
65–90) to `a`–`z` by adding 32, leave every other character
unchanged. -/
def pyLower (c : Char) : Char :=
  if 65 ≤ c.toNat ∧ c.toNat ≤ 90 then Char.ofNat (c.toNat + 32) else c

/-- A character kept unchanged by `re.sub(r"[^\w-]", "-", ...)`:
Python `\w` (ASCII fragment: alphanumeric or underscore) or a hyphen. -/
def keepChar (c : Char) : Bool :=
  c.isAlphanum || c = '_' || c = '-'

/-- One character of `re.sub(r"[^\w-]", "-", ...)`: a character outside
`[\w-]` becomes a hyphen (the class is single-character, so the
substitution acts pointwise). -/
def replChar (c : Char) : Char :=
  if keepChar c then c else '-'

/-- `re.sub(r"-+", "-", ...)`: collapse every run of hyphens to one. -/
def collapseHyphens : Str → Str
  | [] => []
  | [c] => [c]
  | a :: b :: rest =>
      if a = '-' ∧ b = '-' then collapseHyphens (b :: rest)
      else a :: collapseHyphens (b :: rest)

/-- `normalized[1:] if normalized.startswith("#") else normalized`. -/
def dropLeadingHash (l : Str) : Str :=
  if l.head? = some '#' then l.tail else l

/-- `tag_processor.normalize_tag`: strip whitespace, lowercase, drop one
leading `#`, replace non-`[\w-]` characters by hyphens, collapse hyphen
runs, strip surrounding hyphens.  Empty input returns the empty string
(Python's `if not tag` falsy check). -/
def normalize_tag (tag : Str) : Str :=
  if tag = [] then []
  else
    stripHyphens (collapseHyphens
      ((dropLeadingHash ((pyStrip tag).map pyLower)).map replChar))

/-- `tag_processor.filter_meaningful_tags`: drop every tag whose
lowercased form is in the excluded set `{"awesome"}`. -/
def filter_meaningful_tags (tags : List Str) : List Str :=
  tags.filter (fun t => !(decide (t.map pyLower = str "awesome")))

/-- One `for tag in ...` loop body of `tag_processor.inherit_tags`:
normalize each tag and append it when non-empty and not yet present. -/
def addTags (acc : List Str) (tags : List Str) : List Str :=
  tags.foldl
    (fun acc t =>
      let n := normalize_tag t
      if n ≠ [] ∧ n ∉ acc then acc ++ [n] else acc)
    acc

/-- `tag_processor.inherit_tags`: combine inline, section (ancestor) and
frontmatter tags in that order, normalized and deduplicated, then filter
excluded tags.  (Python receives the inline tags as `item["tags"]`; the
dictionary wrapper is inlined here.) -/
def inherit_tags (inline_tags section_tags frontmatter_tags : List Str) :
    List Str :=
  filter_meaningful_tags
    (addTags (addTags (addTags [] inline_tags) section_tags)
      frontmatter_tags)

/-- One heading of `extract_headings` (the `HeadingInfo` TypedDict of
`app/funcs/schema.py`). -/
structure HeadingInfo where
  level : Nat
  text : Str
  clean_text : Str
  tags : List Str
  line_number : Nat
  deriving Repr, DecidableEq

/-- `heading["level"] >= L` filter step shared (textually duplicated in
Python) by `get_ancestor_tags` and `build_section_names`: on seeing a
heading of level `L`, delete every tracked level `>= L`, then record the
heading at `L`.  The association list stays sorted by strictly ascending
level, so iterating it in list order matches Python's
`sorted(current_headings.keys())`. -/
def updateCurrent (cur : List (Nat × HeadingInfo)) (h : HeadingInfo) :
    List (Nat × HeadingInfo) :=
  (cur.filter (fun p => p.1 < h.level)) ++ [(h.level, h)]

/-- The "most recent heading at each level" map both ancestor functions
compute over the headings positioned before the item. -/
def currentHeadings (relevant : List HeadingInfo) :
    List (Nat × HeadingInfo) :=
  relevant.foldl updateCurrent []

/-- `tag_processor.get_ancestor_tags`: normalized, deduplicated tags of
the active ancestor chain at levels `>= 2`, ascending level order. -/
def get_ancestor_tags (heading_hierarchy : List HeadingInfo)
    (item_position : Nat) : List Str :=
  let relevant :=
    heading_hierarchy.filter (fun h => h.line_number < item_position)
  if relevant = [] then []
  else
    (currentHeadings relevant).foldl
      (fun acc p => if 2 ≤ p.1 then addTags acc p.2.tags else acc) []

/-- `tag_processor.build_section_names`: non-empty clean texts of the
active ancestor chain at levels `>= 2`, ascending level order. -/
def build_section_names (heading_hierarchy : List HeadingInfo)
    (item_position : Nat) : List Str :=
  let relevant :=
    heading_hierarchy.filter (fun h => h.line_number < item_position)
  if relevant = [] then []
  else
    (currentHeadings relevant).foldl
      (fun acc p =>
        if 2 ≤ p.1 then
          if p.2.clean_text ≠ [] then acc ++ [p.2.clean_text] else acc
        else acc)
      []

/-- Python `content.split("\n")`. -/
def splitOnNl : Str → List Str
  | [] => [[]]
  | c :: rest =>
      if c = '\n' then [] :: splitOnNl rest
      else
        match splitOnNl rest with
        | [] => [[c]]
        | l :: ls => (c :: l) :: ls

/-- Python `" ".join(parts)`. -/
def joinWithSpace : List Str → Str
  | [] => []
  | [l] => l
  | l :: ls => l ++ ' ' :: joinWithSpace ls

/-- A character matched by the tag-token class `[a-zA-Z0-9_-]`. -/
def isTagChar (c : Char) : Bool :=
  c.isAlphanum || c = '_' || c = '-'

/-- Fuel-indexed worker for `scanTags` (structural recursion on the
fuel keeps the definition kernel-reducible; `scanTags` supplies fuel
equal to the input length, which the scan never exhausts since each
step consumes at least one character). -/
def scanTagsF : Nat → Str → List Str × Str
  | _, [] => ([], [])
  | 0, l => ([], l)
  | fuel + 1, c :: rest =>
      if c = '#' ∧ (rest.takeWhile isTagChar) ≠ [] then
        let run := rest.takeWhile isTagChar
        let (ts, txt) := scanTagsF fuel (rest.drop run.length)
        (run :: ts, txt)
      else
        let (ts, txt) := scanTagsF fuel rest
        (ts, c :: txt)

/-- Simultaneous `re.findall(r"#([a-zA-Z0-9_-]+)", text)` and
`re.sub(r"#([a-zA-Z0-9_-]+)", "", text)`: left-to-right non-overlapping
scan; a match is `#` followed by a maximal non-empty run of tag
characters.  Returns (tag groups found, text with matches removed). -/
def scanTags (l : Str) : List Str × Str := scanTagsF l.length l

/-- Collapse every whitespace run to a single space,
`re.sub(r"\s+", " ", text)`. -/
def collapseWs : Str → Str
  | [] => []
  | [c] => if pyIsSpace c then [' '] else [c]
  | a :: b :: rest =>
      if pyIsSpace a ∧ pyIsSpace b then collapseWs (b :: rest)
      else (if pyIsSpace a then ' ' else a) :: collapseWs (b :: rest)

/-- `markdown_parser.parse_heading_tags`: extract `#tag` tokens, strip
them from the text, strip surrounding whitespace, collapse inner
whitespace runs. -/
def parse_heading_tags (heading_text : Str) : Str × List Str :=
  let (tags, without) := scanTags heading_text
  (collapseWs (pyStrip without), tags)

/-- The `\s+(.+)$` tail shared by the heading and bullet regexes, with
the regex engine's backtracking: `\s+` greedily takes the maximal
whitespace run; when that leaves `(.+)` nothing, one whitespace
character is given back.  Returns the `(.+)` group.  (Both call sites
pass single lines, so the input contains no newline and `$`/`.` need no
newline handling.) -/
def wsPlusText (rest : Str) : Option Str :=
  if (rest.takeWhile pyIsSpace).length = 0 then none
  else if (rest.takeWhile pyIsSpace).length < rest.length then
    some (rest.drop (rest.takeWhile pyIsSpace).length)
  else if 2 ≤ (rest.takeWhile pyIsSpace).length then
    some (rest.drop ((rest.takeWhile pyIsSpace).length - 1))
  else none

/-- `re.match(r"^(#{1,6})\s+(.+)$", line)`: `#{1,6}` can only match the
whole leading hash run (backtracking to fewer hashes leaves a `#` where
`\s` is required), so seven or more leading hashes never match.
Returns (level, heading-text group). -/
def headingMatch (l : Str) : Option (Nat × Str) :=
  if 1 ≤ (l.takeWhile (· = '#')).length ∧
      (l.takeWhile (· = '#')).length ≤ 6 then
    match wsPlusText (l.drop (l.takeWhile (· = '#')).length) with
    | some text => some ((l.takeWhile (· = '#')).length, text)
    | none => none
  else none

/-- `markdown_parser.extract_headings`: scan the lines (1-indexed),
matching the heading regex against each *stripped* line. -/
def extract_headings (content : Str) : List HeadingInfo :=
  ((splitOnNl content).zip
      (List.range (splitOnNl content).length)).foldl
    (fun acc p =>
      match headingMatch (pyStrip p.1) with
      | some (level, text) =>
          let ct := parse_heading_tags text
          acc ++ [{ level := level, text := text, clean_text := ct.1,
                    tags := ct.2, line_number := p.2 + 1 }]
      | none => acc)
    []

/-- `https?://` with the regex's greedy optional `s` (the longer scheme
is tried first).  Returns the scheme length. -/
def matchScheme (l : Str) : Option Nat :=
  if l.take 8 = str "https://" then some 8
  else if l.take 7 = str "http://" then some 7
  else none

/-- `re.findall` driver: left-to-right non-overlapping scan, trying
`tryAt` at every position; on a match, emit the capture and continue
after the match; otherwise advance one character.  Every pattern used
here consumes at least one character, so fuel equal to the input length
is never exhausted. -/
def scanAllF (tryAt : Str → Option (Str × Str)) :
    Nat → Str → List Str
  | _, [] => []
  | 0, _ => []
  | fuel + 1, c :: rest =>
      match tryAt (c :: rest) with
      | some (a, rem) => a :: scanAllF tryAt fuel rem
      | none => scanAllF tryAt fuel rest

/-- Match attempt for `<(https?://[^\s>]+)>` at the current position;
returns (group 1, remainder after the match).  The greedy `[^\s>]+` run
can only be followed by `>`, whitespace, or end of input; backtracking
cannot help since a shorter run still faces a class character. -/
def angleTryAt (l : Str) : Option (Str × Str) :=
  match l with
  | c :: rest =>
      if c = '<' then
        match matchScheme rest with
        | some n =>
            if (rest.drop n).takeWhile
                  (fun c => !pyIsSpace c && c ≠ '>') ≠ [] ∧
                ((rest.drop n).drop ((rest.drop n).takeWhile
                  (fun c => !pyIsSpace c && c ≠ '>')).length).head? =
                  some '>' then
              some (rest.take n ++ (rest.drop n).takeWhile
                  (fun c => !pyIsSpace c && c ≠ '>'),
                ((rest.drop n).drop ((rest.drop n).takeWhile
                  (fun c => !pyIsSpace c && c ≠ '>')).length).tail)
            else none
        | none => none
      else none
  | [] => none

/-- The character class `[^\s<>]` of the bare-URL pattern. -/
def bareClass (c : Char) : Bool :=
  !pyIsSpace c && c ≠ '<' && c ≠ '>'

/-- Match attempt for `(?<!<)(https?://[^\s<>]+)(?![>])`: the greedy run
is taken whole when not followed by `>`; when it is, the engine
backtracks one character (the character given back is a class character,
so the lookahead then succeeds), which keeps URLs like
`https://a.com` inside `(...)` matching *through* the closing
parenthesis.  `prev` is the character before the position (lookbehind). -/
def bareTryAt (prev : Option Char) (l : Str) : Option (Str × Str) :=
  if prev = some '<' then none
  else
    match matchScheme l with
    | some n =>
        if (l.drop n).takeWhile bareClass = [] then none
        else
          if ((l.drop n).drop
              ((l.drop n).takeWhile bareClass).length).head? =
                some '>' then
            if 2 ≤ ((l.drop n).takeWhile bareClass).length then
              some (l.take n ++
                  ((l.drop n).takeWhile bareClass).dropLast,
                (l.drop n).drop
                  (((l.drop n).takeWhile bareClass).length - 1))
            else none
          else
            some (l.take n ++ (l.drop n).takeWhile bareClass,
              (l.drop n).drop ((l.drop n).takeWhile bareClass).length)
    | none => none

/-- `re.findall` driver for the bare-URL pattern, threading the
character preceding the scan position for the `(?<!<)` lookbehind. -/
def bareScanF : Nat → Option Char → Str → List Str
  | _, _, [] => []
  | 0, _, _ => []
  | fuel + 1, prev, c :: rest =>
      match bareTryAt prev (c :: rest) with
      | some (url, rem) =>
          let consumed := (c :: rest).take ((c :: rest).length - rem.length)
          url :: bareScanF fuel consumed.getLast? rem
      | none => bareScanF fuel (some c) rest

/-- Match attempt for `\[([^\]]+)\]\(([^)]+)\)`; the code keeps only the
URL group (`match[1]`), which is what is returned here. -/
def mdTryAt (l : Str) : Option (Str × Str) :=
  match l with
  | '[' :: rest =>
      let run1 := rest.takeWhile (· ≠ ']')
      if run1 ≠ [] then
        match rest.drop run1.length with
        | ']' :: '(' :: rest2 =>
            let run2 := rest2.takeWhile (· ≠ ')')
            if run2 ≠ [] ∧ (rest2.drop run2.length).head? = some ')' then
              some (run2, (rest2.drop run2.length).tail)
            else none
        | _ => none
      else none
  | _ => none

/-- `markdown_parser.extract_urls`: angle-bracket matches, then bare
matches, then markdown-link URL groups, concatenated in that order. -/
def extract_urls (text : Str) : List Str :=
  scanAllF angleTryAt text.length text
    ++ bareScanF text.length none text
    ++ scanAllF mdTryAt text.length text

/-- Fuel-indexed worker for `removeAll`. -/
def removeAllF : Nat → Str → Str → Str
  | _, _, [] => []
  | 0, _, l => l
  | fuel + 1, pat, c :: rest =>
      if pat ≠ [] ∧ (c :: rest).take pat.length = pat then
        removeAllF fuel pat ((c :: rest).drop pat.length)
      else c :: removeAllF fuel pat rest

/-- Python `text.replace(pat, "")`: remove every (leftmost,
non-overlapping) occurrence of `pat`.  (With an empty pattern Python's
replace with an empty replacement returns the text unchanged, as here.) -/
def removeAll (pat text : Str) : Str := removeAllF text.length pat text

/-- `markdown_parser.parse_item_content`: extract URLs (first one is the
link), strip URL matches and `<>` remnants, extract inline tags, then
split/trim the remaining text into title and description.  (The
`isinstance(item_text, list)` branch is resolved by the caller, which
always passes the joined text.) -/
def parse_item_content (item_text : Str) : Str × Str × Str × List Str :=
  let urls := extract_urls item_text
  let link := urls.headD []
  let text_without_urls :=
    urls.foldl (fun t u => removeAll (str "<>") (removeAll u t)) item_text
  let (tags, text_without_tags) := scanTags text_without_urls
  let text_parts :=
    ((splitOnNl text_without_tags).map pyStrip).filter (· ≠ [])
  match text_parts with
  | [] => ([], [], link, tags)
  | title :: rest => (title, joinWithSpace rest, link, tags)

/-- One raw bullet block of `extract_list_items` (a raw-item dict). -/
structure RawItem where
  raw_text : List Str
  context : List HeadingInfo
  line_number : Nat
  deriving Repr, DecidableEq

/-- `re.match(r"^[\s]*[-*]\s+(.+)$", line)`: optional leading
whitespace, a bullet marker, then the shared `\s+(.+)$` tail.
(Backtracking cannot move the `[-*]` position: every character the
`[\s]*` could give back is whitespace, not a marker.) -/
def bulletMatch (line : Str) : Option Str :=
  match line.dropWhile pyIsSpace with
  | c :: rest => if c = '-' ∨ c = '*' then wsPlusText rest else none
  | [] => none

/-- `line.startswith("  ") or line.startswith("\t")`. -/
def startsIndent (line : Str) : Bool :=
  line.take 2 = [' ', ' '] || line.head? = some '\t'

/-- One line of the `markdown_parser.extract_list_items` scan: update
the heading context, then either open a new bullet block (closing any
open one) or append an indented non-blank continuation line. -/
def extractItemsStep (headings : List HeadingInfo)
    (state : List RawItem × Option RawItem × List HeadingInfo)
    (p : Str × Nat) : List RawItem × Option RawItem × List HeadingInfo :=
  let items := state.1
  let cur := state.2.1
  let ln := p.2 + 1
  let ctx' := match headings.find? (fun h => h.line_number = ln) with
    | some h => [h]
    | none => state.2.2
  match bulletMatch p.1 with
  | some t =>
      let items' := match cur with
        | some it => items ++ [it]
        | none => items
      (items', some ⟨[t], ctx', ln⟩, ctx')
  | none =>
      match cur with
      | some it =>
          if pyStrip p.1 ≠ [] then
            if startsIndent p.1 then
              (items,
                some { it with raw_text := it.raw_text ++ [pyStrip p.1] },
                ctx')
            else (items, cur, ctx')
          else (items, cur, ctx')
      | none => (items, cur, ctx')

/-- `markdown_parser.extract_list_items`: scan lines (1-indexed),
collecting bullet blocks plus their indented continuation lines; the
still-open block is closed at end of input. -/
def extract_list_items (content : Str) (headings : List HeadingInfo) :
    List RawItem :=
  let lines := splitOnNl content
  let res := (lines.zip (List.range lines.length)).foldl
    (extractItemsStep headings) ([], none, [])
  match res.2.1 with
  | some it => res.1 ++ [it]
  | none => res.1

/-- Modelled from the spec: the YAML metadata mapping produced by the
external `yaml.safe_load` (not part of this repository).  The only key
the pipeline consumes is `tags` (a sequence of raw tag strings, absent
defaulting to the empty sequence), so the mapping is represented by that
sequence; the empty mapping `{}` is `emptyMetadata`. -/
structure Metadata where
  tags : List Str
  deriving Repr, DecidableEq

/-- The empty metadata mapping `{}`. -/
def emptyMetadata : Metadata := ⟨[]⟩

/-- Greedy `\s*\n` at the end of the frontmatter pattern: the `\s*` run
followed by the literal newline consumes up to and including the *last*
newline inside the maximal whitespace run.  Returns the number of
characters consumed. -/
def wsNl (l : Str) : Option Nat :=
  match ((List.range (l.takeWhile pyIsSpace).length).filter
      (fun i => (l.takeWhile pyIsSpace).get? i = some '\n')).getLast?
      with
  | some k => some (k + 1)
  | none => none

/-- The lazy `(.*?)\n---\s*\n` tail of the frontmatter regex: find the
*earliest* position where `\n---` is followed by a successful `\s*\n`;
return (the `(.*?)` group, the remainder after the whole match). -/
def phase2 : Str → Option (Str × Str)
  | [] => none
  | c :: rest =>
      if c = '\n' ∧ rest.take 3 = str "---" ∧
          (wsNl (rest.drop 3)).isSome then
        some ([], (rest.drop 3).drop ((wsNl (rest.drop 3)).getD 0))
      else
        match phase2 rest with
        | some (body, rem) => some (c :: body, rem)
        | none => none

/-- Candidate consumptions of the leading `\s*\n` (positions of `\n`
inside the maximal whitespace run), in the greedy engine's order:
longest first. -/
def fmCandidates (w : Str) : List Nat :=
  ((List.range w.length).filter (fun i => w.get? i = some '\n')).reverse

/-- First successful alternative, in the supplied order. -/
def firstSome {α : Type} (f : Nat → Option α) : List Nat → Option α
  | [] => none
  | k :: ks =>
      match f k with
      | some a => some a
      | none => firstSome f ks

/-- `re.match(r"^---\s*\n(.*?)\n---\s*\n", content, re.DOTALL)`:
the literal `---`, the greedy `\s*\n` (tried longest first), then the
lazy tail.  Returns (group 1, `content[match.end():]`). -/
def fmMatch (content : Str) : Option (Str × Str) :=
  if content.take 3 = str "---" then
    firstSome (fun k => phase2 ((content.drop 3).drop (k + 1)))
      (fmCandidates ((content.drop 3).takeWhile pyIsSpace))
  else none

/-- `markdown_parser.parse_frontmatter`, parameterized by the external
YAML decoder (`yaml.safe_load` combined with the `or {}` fallback for a
`None` result; `none` models a raised `YAMLError`). -/
def parse_frontmatter (yamlDecode : Str → Option Metadata)
    (content : Str) : Metadata × Str :=
  match fmMatch content with
  | none => (emptyMetadata, content)
  | some (yaml_content, remaining) =>
      match yamlDecode yaml_content with
      | some m => (m, remaining)
      | none => (emptyMetadata, content)

/-- One item of an `AwesomeList` (the `AwesomeListItem` TypedDict of
`app/funcs/schema.py`). -/
structure AwesomeListItem where
  title : Str
  link : Str
  description : Str
  tags : List Str
  sections : List Str
  topic : Str
  source_file : Str
  line_number : Nat
  deriving Repr, DecidableEq

/-- A parsed document (the `AwesomeList` TypedDict of
`app/funcs/schema.py`). -/
structure AwesomeList where
  topic : Str
  items : List AwesomeListItem
  source_file : Str
  deriving Repr, DecidableEq

/-- `markdown_parser.process_item`: join the block's lines with single
spaces, parse the content, drop the item when the stripped title is
empty, otherwise resolve ancestors, sections and inherited tags. -/
def process_item (raw_item : RawItem) (headings : List HeadingInfo)
    (frontmatter_tags : List Str) (topic : Str) (source_file : Str) :
    Option AwesomeListItem :=
  let full_text := joinWithSpace raw_item.raw_text
  let r := parse_item_content full_text
  if pyStrip r.1 = [] then none
  else
    let item_position := raw_item.line_number
    let ancestor_tags := get_ancestor_tags headings item_position
    let sections := build_section_names headings item_position
    let all_tags := inherit_tags r.2.2.2 ancestor_tags frontmatter_tags
    some { title := pyStrip r.1, link := r.2.2.1,
           description := pyStrip r.2.1, tags := all_tags,
           sections := sections, topic := topic,
           source_file := source_file, line_number := item_position }

/-- `markdown_parser.parse_markdown_content`: frontmatter, headings,
topic (first level-1 heading's clean text, required), raw items,
processed items.  The `ValueError` raised on a missing topic is
modelled as `Except.error` carrying the message. -/
def parse_markdown_content (yamlDecode : Str → Option Metadata)
    (content file_path : Str) : Except Str AwesomeList :=
  let fm := parse_frontmatter yamlDecode content
  let headings := extract_headings fm.2
  let topic := match headings.find? (fun h => h.level = 1) with
    | some h => h.clean_text
    | none => []
  if topic = [] then
    .error (str "No H1 heading found in " ++ file_path)
  else
    let raw_items := extract_list_items fm.2 headings
    let processed_items := raw_items.filterMap
      (fun r => process_item r headings fm.1.tags topic file_path)
    .ok { topic := topic, items := processed_items,
          source_file := file_path }

deriving instance DecidableEq for Except

/-- A decoder for the single frontmatter block of the end-to-end
scenario, standing in for `yaml.safe_load`. -/
def llmsDecoder (y : Str) : Option Metadata :=
  if y = str "tags: [llms]" then some ⟨[str "llms"]⟩ else none

/-- Written from the spec's words (§4.2 / claim C2), for refinement
against `inherit_tags`: build an ordered result by iterating the three
input sequences in the fixed priority order inline, ancestor,
frontmatter; normalize each raw tag; append it when the normalized form
is non-empty and not already present. -/
def specResolveStep (acc : List Str) (t : Str) : List Str :=
  let n := normalize_tag t
  if n ≠ [] ∧ n ∉ acc then acc ++ [n] else acc

/-- Written from the spec's words: the combined normalize-dedup-append
pass over the three tag sources in priority order. -/
def specResolve (inline_tags ancestor_tags frontmatter_tags : List Str) :
    List Str :=
  (inline_tags ++ ancestor_tags ++ frontmatter_tags).foldl
    specResolveStep []

/-- The language of `^---\s*\n(.*?)\n---\s*\n` (DOTALL): an opening
`---` line (with optional trailing whitespace, possibly spanning blank
whitespace lines), any body, then a closing `---` line likewise ended by
a newline.  `fmMatch` succeeds exactly on contents of this shape; only
the soundness direction (a match implies the shape) is proved below. -/
def FMShape (content : Str) : Prop :=
  ∃ w1 body w2 rest,
    (∀ c ∈ w1, pyIsSpace c = true) ∧ (∀ c ∈ w2, pyIsSpace c = true) ∧
    content =
      str "---" ++ w1 ++ '\n' ::
        (body ++ '\n' :: (str "---" ++ w2 ++ '\n' :: rest))

/-- The shape the heading regex `^(#{1,6})\s+(.+)$` accepts on a
(newline-free) stripped line: 1–6 hashes, at least one whitespace
character, then non-empty remaining text. -/
def HeadingShape (s : Str) : Prop :=
  ∃ k w t, 1 ≤ k ∧ k ≤ 6 ∧ w ≠ [] ∧ (∀ c ∈ w, pyIsSpace c = true) ∧
    t ≠ [] ∧ s = List.replicate k '#' ++ w ++ t

/-- Heading fixture for the ancestor-resolution scenario: `H2@line5`. -/
def hTools : HeadingInfo :=
  { level := 2, text := str "Tools #a", clean_text := str "Tools",
    tags := [str "a"], line_number := 5 }

/-- Heading fixture: `H3@line8`. -/
def hEditors : HeadingInfo :=
  { level := 3, text := str "Editors #b", clean_text := str "Editors",
    tags := [str "b"], line_number := 8 }

/-- Heading fixture: `H2@line12`. -/
def hMore : HeadingInfo :=
  { level := 2, text := str "More #c", clean_text := str "More",
    tags := [str "c"], line_number := 12 }

/-- The end-to-end scenario document of claim C1. -/
def c1Content : Str :=
  str "---\ntags: [llms]\n---\n# LLMs\n## Models #ai\n- Gemma <https://x.com/gemma> #google\n"

/-- The body of the scenario document, after the frontmatter match. -/
def c1Body : Str :=
  str "# LLMs\n## Models #ai\n- Gemma <https://x.com/gemma> #google\n"

/-- The item the end-to-end scenario must produce. -/
def c1Item : AwesomeListItem :=
  { title := str "Gemma", link := str "https://x.com/gemma",
    description := [], tags := [str "google", str "ai", str "llms"],
    sections := [str "Models"], topic := str "LLMs",
    source_file := str "test.md", line_number := 3 }

/-! ### Character-level helper lemmas -/

theorem char_toNat_ofNat {n : Nat} (h : n < 55296) :
    (Char.ofNat n).toNat = n := by
  rw [Char.ofNat, dif_pos (Or.inl h)]
  rfl

theorem pyLower_pyLower (c : Char) : pyLower (pyLower c) = pyLower c := by
  unfold pyLower
  by_cases h : 65 ≤ c.toNat ∧ c.toNat ≤ 90
  · rw [if_pos h]
    have ht : (Char.ofNat (c.toNat + 32)).toNat = c.toNat + 32 :=
      char_toNat_ofNat (by omega)
    rw [if_neg (by rw [ht]; omega)]
  · rw [if_neg h, if_neg h]

theorem keepChar_replChar (c : Char) : keepChar (replChar c) = true := by
  unfold replChar
  split
  · assumption
  · decide

theorem replChar_eq_self {c : Char} (h : keepChar c = true) :
    replChar c = c := by
  unfold replChar
  rw [if_pos h]

theorem pyIsSpace_cases {c : Char} (h : pyIsSpace c = true) :
    c = ' ' ∨ c = '\t' ∨ c = '\n' ∨ c = '\r' ∨ c = '\x0b' ∨ c = '\x0c' := by
  simp [pyIsSpace] at h
  tauto

theorem keep_not_space {c : Char} (h : keepChar c = true) :
    pyIsSpace c = false := by
  cases hs : pyIsSpace c
  · rfl
  · rcases pyIsSpace_cases hs with rfl | rfl | rfl | rfl | rfl | rfl <;>
      exact absurd h (by decide)

theorem keep_ne_hash {c : Char} (h : keepChar c = true) : c ≠ '#' := by
  rintro rfl
  exact absurd h (by decide)

/-! ### List helper lemmas for stripping and collapsing -/

theorem mem_of_head?_eq {l : Str} {c : Char} (h : l.head? = some c) :
    c ∈ l := by
  apply List.mem_of_mem_head?
  rw [h]
  rfl

theorem dropWhile_head_not {p : Char → Bool} {l : Str} :
    ∀ {c : Char}, (l.dropWhile p).head? = some c → p c = false := by
  induction l with
  | nil => intro c h; simp [List.dropWhile] at h
  | cons a t ih =>
      intro c h
      rw [List.dropWhile_cons] at h
      by_cases ha : p a
      · rw [if_pos ha] at h
        exact ih h
      · rw [if_neg ha] at h
        obtain rfl : a = c := by simpa using h
        simpa using ha

theorem dropWhile_eq_self_of_head {p : Char → Bool} {l : Str}
    (h : ∀ c, l.head? = some c → p c = false) : l.dropWhile p = l := by
  cases l with
  | nil => rfl
  | cons a t => rw [List.dropWhile_cons, if_neg (by simp [h a rfl])]

theorem prefix_dropTrailing (p : Char → Bool) (l : Str) :
    dropTrailing p l <+: l := by
  show (l.reverse.dropWhile p).reverse <+: l
  have h2 := List.reverse_prefix.mpr
    (List.dropWhile_suffix (l := l.reverse) (p := p))
  simpa using h2

theorem mem_dropTrailing {p : Char → Bool} {l : Str} {c : Char}
    (h : c ∈ dropTrailing p l) : c ∈ l :=
  (prefix_dropTrailing p l).subset h

theorem mem_stripHyphens {l : Str} {c : Char} (h : c ∈ stripHyphens l) :
    c ∈ l :=
  List.dropWhile_subset _ (mem_dropTrailing h)

theorem mem_pyStrip {l : Str} {c : Char} (h : c ∈ pyStrip l) : c ∈ l :=
  List.dropWhile_subset _ (mem_dropTrailing h)

theorem dropTrailing_reverse (p : Char → Bool) (l : Str) :
    (dropTrailing p l).reverse = l.reverse.dropWhile p := by
  unfold dropTrailing
  rw [List.reverse_reverse]

theorem dropTrailing_last_not {p : Char → Bool} {l : Str} {c : Char}
    (h : (dropTrailing p l).reverse.head? = some c) : p c = false := by
  rw [dropTrailing_reverse] at h
  exact dropWhile_head_not h

theorem prefix_head_eq {l m : Str} (h : l <+: m) {c : Char}
    (hc : l.head? = some c) : m.head? = some c := by
  obtain ⟨t, rfl⟩ := h
  cases l with
  | nil => simp at hc
  | cons a t' =>
      simp only [List.cons_append, List.head?_cons] at hc ⊢
      exact hc

theorem stripHyphens_head_ne {l : Str} {c : Char}
    (h : (stripHyphens l).head? = some c) : c ≠ '-' := by
  unfold stripHyphens at h
  have h2 := prefix_head_eq (prefix_dropTrailing _ _) h
  have h3 := dropWhile_head_not h2
  simpa using h3

theorem stripHyphens_last_ne {l : Str} {c : Char}
    (h : (stripHyphens l).reverse.head? = some c) : c ≠ '-' := by
  unfold stripHyphens at h
  have h2 := dropTrailing_last_not h
  simpa using h2

theorem dropTrailing_eq_self {p : Char → Bool} {l : Str}
    (h : ∀ c, l.reverse.head? = some c → p c = false) :
    dropTrailing p l = l := by
  unfold dropTrailing
  rw [dropWhile_eq_self_of_head h, List.reverse_reverse]

theorem pyStrip_eq_self {l : Str} (h : ∀ c ∈ l, pyIsSpace c = false) :
    pyStrip l = l := by
  unfold pyStrip
  rw [dropWhile_eq_self_of_head (fun c hc => h c (mem_of_head?_eq hc))]
  exact dropTrailing_eq_self
    (fun c hc => h c (List.mem_reverse.mp (mem_of_head?_eq hc)))

theorem map_eq_self_of_mem {f : Char → Char} {l : Str}
    (h : ∀ c ∈ l, f c = c) : l.map f = l :=
  (List.map_congr_left h).trans (List.map_id l)

theorem collapseHyphens_head : ∀ (b : Char) (rest : Str),
    (collapseHyphens (b :: rest)).head? = some b
  | _, [] => rfl
  | b, c :: r => by
    unfold collapseHyphens
    split
    · rename_i hbc
      rw [collapseHyphens_head c r, hbc.1, hbc.2]
    · rfl

theorem collapseHyphens_chain : ∀ l : Str,
    List.Chain' (fun a b => ¬(a = '-' ∧ b = '-')) (collapseHyphens l)
  | [] => by simp [collapseHyphens]
  | [c] => by simp [collapseHyphens]
  | a :: b :: rest => by
    unfold collapseHyphens
    split
    · exact collapseHyphens_chain (b :: rest)
    · rename_i hne
      rw [List.chain'_cons']
      refine ⟨?_, collapseHyphens_chain (b :: rest)⟩
      intro x hx
      rw [collapseHyphens_head b rest] at hx
      obtain rfl : b = x := by simpa using hx
      exact hne

theorem collapseHyphens_eq_self : ∀ {l : Str},
    List.Chain' (fun a b => ¬(a = '-' ∧ b = '-')) l →
      collapseHyphens l = l
  | [], _ => rfl
  | [_], _ => rfl
  | a :: b :: rest, h => by
    rw [List.chain'_cons'] at h
    unfold collapseHyphens
    rw [if_neg (h.1 b rfl), collapseHyphens_eq_self h.2]

theorem collapseHyphens_subset : ∀ {l : Str} {c : Char},
    c ∈ collapseHyphens l → c ∈ l
  | [], c, h => by simp [collapseHyphens] at h
  | [a], c, h => by simpa [collapseHyphens] using h
  | a :: b :: rest, c, h => by
    unfold collapseHyphens at h
    split at h
    · exact List.mem_cons_of_mem a (collapseHyphens_subset h)
    · cases List.mem_cons.mp h with
      | inl h => exact h ▸ List.mem_cons_self a _
      | inr h => exact List.mem_cons_of_mem a (collapseHyphens_subset h)

/-! ### Structure of normalized tags -/

theorem normalize_tag_chars {t : Str} {c : Char}
    (h : c ∈ normalize_tag t) : keepChar c = true ∧ pyLower c = c := by
  unfold normalize_tag at h
  split at h
  · simp at h
  · have h1 := mem_stripHyphens h
    have h2 := collapseHyphens_subset h1
    obtain ⟨d, hd, rfl⟩ := List.mem_map.mp h2
    refine ⟨keepChar_replChar d, ?_⟩
    have hd2 : d ∈ (pyStrip t).map pyLower := by
      unfold dropLeadingHash at hd
      split at hd
      · exact List.mem_of_mem_tail hd
      · exact hd
    obtain ⟨e, _, rfl⟩ := List.mem_map.mp hd2
    unfold replChar
    split
    · exact pyLower_pyLower e
    · decide

theorem normalize_tag_chain (t : Str) :
    List.Chain' (fun a b => ¬(a = '-' ∧ b = '-')) (normalize_tag t) := by
  unfold normalize_tag
  split
  · simp
  · unfold stripHyphens
    have hc := collapseHyphens_chain
      ((dropLeadingHash ((pyStrip t).map pyLower)).map replChar)
    exact List.Chain'.prefix (hc.suffix (List.dropWhile_suffix _))
      (prefix_dropTrailing _ _)

theorem normalize_tag_head_ne (t : Str) {c : Char}
    (h : (normalize_tag t).head? = some c) : c ≠ '-' := by
  unfold normalize_tag at h
  split at h
  · simp at h
  · exact stripHyphens_head_ne h

theorem normalize_tag_last_ne (t : Str) {c : Char}
    (h : (normalize_tag t).reverse.head? = some c) : c ≠ '-' := by
  unfold normalize_tag at h
  split at h
  · simp at h
  · exact stripHyphens_last_ne h

/-- C5: tag normalization is idempotent — for every string `s`,
`normalize_tag (normalize_tag s) = normalize_tag s`.  Totality ("never
raises") holds by construction: `normalize_tag` is a total function on
strings. -/
theorem c5_normalize_idempotent (s : Str) :
    normalize_tag (normalize_tag s) = normalize_tag s := by
  by_cases h0 : normalize_tag s = []
  · rw [h0]
    rfl
  · have hchars : ∀ c ∈ normalize_tag s,
        keepChar c = true ∧ pyLower c = c :=
      fun _ hc => normalize_tag_chars hc
    set r := normalize_tag s with hr
    unfold normalize_tag
    rw [if_neg h0]
    rw [pyStrip_eq_self (fun c hc => keep_not_space (hchars c hc).1)]
    rw [map_eq_self_of_mem (fun c hc => (hchars c hc).2)]
    have h3 : dropLeadingHash r = r := by
      unfold dropLeadingHash
      rw [if_neg]
      intro hh
      exact keep_ne_hash (hchars '#' (mem_of_head?_eq hh)).1 rfl
    rw [h3]
    rw [map_eq_self_of_mem
      (fun c hc => replChar_eq_self (hchars c hc).1)]
    have h5 : collapseHyphens r = r :=
      collapseHyphens_eq_self (by rw [hr]; exact normalize_tag_chain s)
    rw [h5]
    unfold stripHyphens
    rw [dropWhile_eq_self_of_head (fun c hc => by
      have hne : c ≠ '-' :=
        normalize_tag_head_ne s (by rw [← hr]; exact hc)
      exact decide_eq_false hne)]
    exact dropTrailing_eq_self (fun c hc => by
      have hne : c ≠ '-' :=
        normalize_tag_last_ne s (by rw [← hr]; exact hc)
      exact decide_eq_false hne)

/-! ### Tag-resolver lemmas -/

theorem addTags_eq_foldl (acc l : List Str) :
    addTags acc l = l.foldl specResolveStep acc := rfl

theorem filter_meaningful_eq_self {l : List Str}
    (h : ∀ t ∈ l, t.map pyLower ≠ str "awesome") :
    filter_meaningful_tags l = l := by
  unfold filter_meaningful_tags
  apply List.filter_eq_self.mpr
  intro t ht
  simpa using h t ht

theorem mem_foldl_specStep {l : List Str} :
    ∀ {acc : List Str} {t : Str}, t ∈ l.foldl specResolveStep acc →
      t ∈ acc ∨ ∃ raw ∈ l, t = normalize_tag raw := by
  induction l with
  | nil => intro acc t h; exact Or.inl h
  | cons x xs ih =>
      intro acc t h
      rw [List.foldl_cons] at h
      rcases ih h with h2 | ⟨raw, hraw, rfl⟩
      · simp only [specResolveStep] at h2
        split at h2
        · rcases List.mem_append.mp h2 with h3 | h3
          · exact Or.inl h3
          · exact Or.inr ⟨x, List.mem_cons_self x xs, by simpa using h3⟩
        · exact Or.inl h2
      · exact Or.inr ⟨raw, List.mem_cons_of_mem x hraw, rfl⟩

theorem mem_addTags {acc l : List Str} {t : Str}
    (h : t ∈ addTags acc l) :
    t ∈ acc ∨ ∃ raw ∈ l, t = normalize_tag raw := by
  rw [addTags_eq_foldl] at h
  exact mem_foldl_specStep h

/-! ### Ancestor-chain lemmas -/

theorem mem_currentHeadings_aux :
    ∀ {rel : List HeadingInfo} {acc : List (Nat × HeadingInfo)}
      {p : Nat × HeadingInfo}, p ∈ rel.foldl updateCurrent acc →
      p ∈ acc ∨ (p.2 ∈ rel ∧ p.1 = p.2.level) := by
  intro rel
  induction rel with
  | nil => intro acc p h; exact Or.inl h
  | cons x xs ih =>
      intro acc p h
      rw [List.foldl_cons] at h
      rcases ih h with h2 | ⟨h3, h4⟩
      · unfold updateCurrent at h2
        rcases List.mem_append.mp h2 with h3 | h3
        · exact Or.inl (List.mem_filter.mp h3).1
        · obtain rfl := List.mem_singleton.mp h3
          exact Or.inr ⟨List.mem_cons_self x xs, rfl⟩
      · exact Or.inr ⟨List.mem_cons_of_mem x h3, h4⟩

theorem mem_ancestor_fold :
    ∀ {cur : List (Nat × HeadingInfo)} {acc : List Str} {t : Str},
      t ∈ cur.foldl
          (fun acc p => if 2 ≤ p.1 then addTags acc p.2.tags else acc)
          acc →
      t ∈ acc ∨ ∃ p ∈ cur, 2 ≤ p.1 ∧
        ∃ raw ∈ p.2.tags, t = normalize_tag raw := by
  intro cur
  induction cur with
  | nil => intro acc t h; exact Or.inl h
  | cons x xs ih =>
      intro acc t h
      rw [List.foldl_cons] at h
      rcases ih h with h2 | ⟨p, hp, h3⟩
      · by_cases hx : 2 ≤ x.1
        · rw [if_pos hx] at h2
          rcases mem_addTags h2 with h3 | ⟨raw, hraw, rfl⟩
          · exact Or.inl h3
          · exact Or.inr ⟨x, List.mem_cons_self x xs, hx, raw, hraw, rfl⟩
        · rw [if_neg hx] at h2
          exact Or.inl h2
      · exact Or.inr ⟨p, List.mem_cons_of_mem x hp, h3⟩

theorem mem_sections_fold :
    ∀ {cur : List (Nat × HeadingInfo)} {acc : List Str} {name : Str},
      name ∈ cur.foldl
          (fun acc p =>
            if 2 ≤ p.1 then
              if p.2.clean_text ≠ [] then acc ++ [p.2.clean_text]
              else acc
            else acc)
          acc →
      name ∈ acc ∨ ∃ p ∈ cur, 2 ≤ p.1 ∧ name = p.2.clean_text := by
  intro cur
  induction cur with
  | nil => intro acc name h; exact Or.inl h
  | cons x xs ih =>
      intro acc name h
      rw [List.foldl_cons] at h
      rcases ih h with h2 | ⟨p, hp, h3⟩
      · by_cases hx : 2 ≤ x.1
        · rw [if_pos hx] at h2
          by_cases hc : x.2.clean_text ≠ []
          · rw [if_pos hc] at h2
            rcases List.mem_append.mp h2 with h3 | h3
            · exact Or.inl h3
            · exact Or.inr
                ⟨x, List.mem_cons_self x xs, hx,
                  List.mem_singleton.mp h3⟩
          · rw [if_neg hc] at h2
            exact Or.inl h2
        · rw [if_neg hx] at h2
          exact Or.inl h2
      · exact Or.inr ⟨p, List.mem_cons_of_mem x hp, h3⟩

/-- C2: the resolver builds its result by iterating inline, ancestor,
frontmatter in order, appending each normalized tag when non-empty and
not yet present (`specResolve`, written from the spec's words); whenever
no excluded tag arises, `inherit_tags` returns exactly that build, and
in particular `resolve(["B","a"], ["a","C"], ["d"]) = ["b","a","c","d"]`. -/
theorem c2_resolve_order_dedup :
    (∀ inline anc fm : List Str,
        (∀ t ∈ specResolve inline anc fm,
          t.map pyLower ≠ str "awesome") →
        inherit_tags inline anc fm = specResolve inline anc fm) ∧
      inherit_tags [str "B", str "a"] [str "a", str "C"] [str "d"] =
        [str "b", str "a", str "c", str "d"] := by
  constructor
  · intro inline anc fm h
    have he : specResolve inline anc fm =
        addTags (addTags (addTags [] inline) anc) fm := by
      unfold specResolve
      rw [List.foldl_append, List.foldl_append]
      rfl
    unfold inherit_tags
    rw [← he]
    exact filter_meaningful_eq_self h
  · decide

/-- Witness for C2 at the claim's concrete input. -/
theorem c2_resolve_order_dedup_witness :
    inherit_tags [str "B", str "a"] [str "a", str "C"] [str "d"] =
      specResolve [str "B", str "a"] [str "a", str "C"] [str "d"] :=
  c2_resolve_order_dedup.1 _ _ _ (by decide)

/-- C6: the resolved tag list never contains the excluded tag
`awesome`, compared case-insensitively (`tag.lower()`), whatever the
three sources are; in particular
`resolve([], [], ["awesome","x"]) = ["x"]`. -/
theorem c6_excluded_tag_never_appears :
    (∀ (inline anc fm : List Str) (t : Str),
        t ∈ inherit_tags inline anc fm →
        t.map pyLower ≠ str "awesome") ∧
      inherit_tags [] [] [str "awesome", str "x"] = [str "x"] := by
  constructor
  · intro inline anc fm t ht
    unfold inherit_tags filter_meaningful_tags at ht
    have h2 := (List.mem_filter.mp ht).2
    simpa using h2
  · decide

/-- Witness for C6 at the claim's concrete input. -/
theorem c6_excluded_tag_never_appears_witness :
    (str "x").map pyLower ≠ str "awesome" :=
  c6_excluded_tag_never_appears.1 [] [] [str "awesome", str "x"]
    (str "x") (by decide)

/-- C3: nearest-heading-wins ancestor resolution — the concrete
`H2@5/H3@8/H2@12` scenario at item positions 10 and 15; only headings
strictly before the item position are considered (filtering to them is
the identity); and every ancestor tag and section name comes from a
heading of level at least 2 positioned strictly before the item, so
level-1 headings never contribute tags or section names. -/
theorem c3_ancestor_nearest_wins :
    (build_section_names [hTools, hEditors, hMore] 10 =
        [str "Tools", str "Editors"] ∧
      get_ancestor_tags [hTools, hEditors, hMore] 10 =
        [str "a", str "b"] ∧
      build_section_names [hTools, hEditors, hMore] 15 = [str "More"] ∧
      get_ancestor_tags [hTools, hEditors, hMore] 15 = [str "c"]) ∧
    (∀ (hs : List HeadingInfo) (pos : Nat),
        get_ancestor_tags hs pos =
          get_ancestor_tags
            (hs.filter (fun h => h.line_number < pos)) pos ∧
        build_section_names hs pos =
          build_section_names
            (hs.filter (fun h => h.line_number < pos)) pos) ∧
    (∀ (hs : List HeadingInfo) (pos : Nat) (t : Str),
        t ∈ get_ancestor_tags hs pos →
        ∃ h ∈ hs, h.line_number < pos ∧ 2 ≤ h.level ∧
          ∃ raw ∈ h.tags, t = normalize_tag raw) ∧
    (∀ (hs : List HeadingInfo) (pos : Nat) (name : Str),
        name ∈ build_section_names hs pos →
        ∃ h ∈ hs, h.line_number < pos ∧ 2 ≤ h.level ∧
          name = h.clean_text) := by
  refine ⟨by decide, ?_, ?_, ?_⟩
  · intro hs pos
    constructor
    · simp only [get_ancestor_tags, List.filter_filter, Bool.and_self]
    · simp only [build_section_names, List.filter_filter, Bool.and_self]
  · intro hs pos t ht
    simp only [get_ancestor_tags] at ht
    split at ht
    · simp at ht
    · rcases mem_ancestor_fold ht with h2 | ⟨p, hp, hge, raw, hraw, rfl⟩
      · simp at h2
      · unfold currentHeadings at hp
        rcases mem_currentHeadings_aux hp with h3 | ⟨hmem, hlvl⟩
        · simp at h3
        · have hf := List.mem_filter.mp hmem
          exact ⟨p.2, hf.1, by simpa using hf.2, hlvl ▸ hge, raw, hraw,
            rfl⟩
  · intro hs pos name hn
    simp only [build_section_names] at hn
    split at hn
    · simp at hn
    · rcases mem_sections_fold hn with h2 | ⟨p, hp, hge, rfl⟩
      · simp at h2
      · unfold currentHeadings at hp
        rcases mem_currentHeadings_aux hp with h3 | ⟨hmem, hlvl⟩
        · simp at h3
        · have hf := List.mem_filter.mp hmem
          exact ⟨p.2, hf.1, by simpa using hf.2, hlvl ▸ hge, rfl⟩

/-- Witness for C3: the provenance part applied at the concrete
scenario, membership discharged by evaluation. -/
theorem c3_ancestor_nearest_wins_witness :
    ∃ h ∈ [hTools, hEditors, hMore], h.line_number < 10 ∧
      2 ≤ h.level ∧ ∃ raw ∈ h.tags, str "b" = normalize_tag raw :=
  c3_ancestor_nearest_wins.2.2.1 [hTools, hEditors, hMore] 10 (str "b")
    (by decide)

/-! ### Frontmatter-regex soundness -/

theorem takeWhile_get_split {p : Char → Bool} :
    ∀ {m : Str} {k : Nat} {c : Char},
      (m.takeWhile p).get? k = some c →
      (∀ x ∈ m.take k, p x = true) ∧
        m = m.take k ++ c :: m.drop (k + 1) ∧ p c = true := by
  intro m
  induction m with
  | nil => intro k c h; simp [List.takeWhile] at h
  | cons a m' ih =>
      intro k c h
      rw [List.takeWhile_cons] at h
      by_cases hpa : p a
      · rw [if_pos hpa] at h
        cases k with
        | zero =>
            obtain rfl : a = c := by simpa using h
            exact ⟨by simp, by simp, hpa⟩
        | succ k' =>
            rw [List.get?_cons_succ] at h
            have hih := ih h
            refine ⟨?_, ?_, hih.2.2⟩
            · intro x hx
              rw [List.take_succ_cons] at hx
              rcases List.mem_cons.mp hx with rfl | hx
              · exact hpa
              · exact hih.1 x hx
            · rw [List.take_succ_cons, List.drop_succ_cons,
                List.cons_append]
              exact congrArg (a :: ·) hih.2.1
      · rw [if_neg hpa] at h
        simp at h

theorem wsNl_sound {m : Str} {n : Nat} (h : wsNl m = some n) :
    (∀ x ∈ m.take (n - 1), pyIsSpace x = true) ∧
      m = m.take (n - 1) ++ '\n' :: m.drop n := by
  unfold wsNl at h
  cases hg : (((List.range (m.takeWhile pyIsSpace).length).filter
      (fun i => (m.takeWhile pyIsSpace).get? i = some '\n'))).getLast?
      with
  | none => rw [hg] at h; simp at h
  | some k =>
      rw [hg] at h
      obtain rfl : k + 1 = n := by simpa using h
      have hk := List.mem_of_mem_getLast? (l := _) (a := k)
        (by rw [hg]; rfl)
      simp only [List.mem_filter, List.mem_range] at hk
      have hd := takeWhile_get_split (p := pyIsSpace) (m := m)
        (c := '\n') (by simpa using hk.2)
      simpa using ⟨hd.1, hd.2.1⟩

theorem phase2_sound : ∀ {l body rem : Str},
    phase2 l = some (body, rem) →
    ∃ w2, (∀ c ∈ w2, pyIsSpace c = true) ∧
      l = body ++ '\n' :: (str "---" ++ w2 ++ '\n' :: rem) := by
  intro l
  induction l with
  | nil => intro body rem h; simp [phase2] at h
  | cons c rest ih =>
      intro body rem h
      unfold phase2 at h
      split at h
      · rename_i hcond
        obtain ⟨rfl, h3, h4⟩ := hcond
        obtain ⟨n, hn⟩ := Option.isSome_iff_exists.mp h4
        rw [hn] at h
        simp only [Option.getD_some, Option.some.injEq, Prod.mk.injEq]
          at h
        obtain ⟨rfl, rfl⟩ := h
        have hs := wsNl_sound hn
        refine ⟨(rest.drop 3).take (n - 1), hs.1, ?_⟩
        have hr : rest = rest.take 3 ++ rest.drop 3 :=
          (List.take_append_drop 3 rest).symm
        rw [List.nil_append]
        calc '\n' :: rest = '\n' :: (rest.take 3 ++ rest.drop 3) := by
              rw [← hr]
        _ = '\n' :: (str "---" ++
              ((rest.drop 3).take (n - 1) ++
                '\n' :: (rest.drop 3).drop n)) := by
              rw [h3, ← hs.2]
        _ = '\n' :: (str "---" ++ (rest.drop 3).take (n - 1) ++
              '\n' :: (rest.drop 3).drop n) := by
              rw [List.append_assoc]
      · cases hp : phase2 rest with
        | none => rw [hp] at h; simp at h
        | some pr =>
            obtain ⟨body', rem'⟩ := pr
            rw [hp] at h
            simp only [Option.some.injEq, Prod.mk.injEq] at h
            obtain ⟨rfl, rfl⟩ := h
            obtain ⟨w2, hw, hrest⟩ := ih hp
            exact ⟨w2, hw, by rw [List.cons_append, hrest]⟩

theorem firstSome_sound {α : Type} {f : Nat → Option α} :
    ∀ {ks : List Nat} {a : α}, firstSome f ks = some a →
      ∃ k ∈ ks, f k = some a := by
  intro ks
  induction ks with
  | nil => intro a h; simp [firstSome] at h
  | cons k ks ih =>
      intro a h
      unfold firstSome at h
      cases hf : f k with
      | some b =>
          rw [hf] at h
          exact ⟨k, List.mem_cons_self k ks, hf.trans h⟩
      | none =>
          rw [hf] at h
          obtain ⟨k', hk', hfk⟩ := ih h
          exact ⟨k', List.mem_cons_of_mem k hk', hfk⟩

theorem fmMatch_sound {content y rem : Str}
    (h : fmMatch content = some (y, rem)) : FMShape content := by
  unfold fmMatch at h
  split at h
  · rename_i h3
    obtain ⟨k, hk, hp⟩ := firstSome_sound h
    unfold fmCandidates at hk
    rw [List.mem_reverse] at hk
    simp only [List.mem_filter, List.mem_range] at hk
    have hd := takeWhile_get_split (p := pyIsSpace)
      (m := content.drop 3) (c := '\n') (by simpa using hk.2)
    obtain ⟨w2, hw2, hrest⟩ := phase2_sound hp
    refine ⟨(content.drop 3).take k, y, w2, rem, hd.1, hw2, ?_⟩
    calc content = content.take 3 ++ content.drop 3 :=
          (List.take_append_drop 3 content).symm
    _ = str "---" ++
          ((content.drop 3).take k ++
            '\n' :: (content.drop 3).drop (k + 1)) := by
          rw [h3, ← hd.2.1]
    _ = str "---" ++ (content.drop 3).take k ++
          '\n' :: (y ++ '\n' :: (str "---" ++ w2 ++ '\n' :: rem)) := by
          rw [hrest]
          simp [List.append_assoc]
  · simp at h

/-- C7: whenever the content is not of the frontmatter shape (in
particular whenever the closing `---` delimiter line is absent), or the
YAML block fails to decode, the parser returns the empty metadata map
together with the original content unchanged. -/
theorem c7_frontmatter_safe_fallback
    (yamlDecode : Str → Option Metadata) (content : Str) :
    (¬ FMShape content →
        parse_frontmatter yamlDecode content =
          (emptyMetadata, content)) ∧
      (∀ y rem, fmMatch content = some (y, rem) → yamlDecode y = none →
        parse_frontmatter yamlDecode content =
          (emptyMetadata, content)) := by
  constructor
  · intro hns
    unfold parse_frontmatter
    cases hm : fmMatch content with
    | none => rfl
    | some pr =>
        obtain ⟨y, rem⟩ := pr
        exact absurd (fmMatch_sound hm) hns
  · intro y rem hm hd
    unfold parse_frontmatter
    rw [hm]
    dsimp only
    rw [hd]

/-- Witness for C7: a content with no closing delimiter is returned
unchanged, and a decoder failure on a well-formed block also falls
back to the original content. -/
theorem c7_frontmatter_safe_fallback_witness :
    parse_frontmatter (fun _ => some emptyMetadata) (str "---\nx") =
        (emptyMetadata, str "---\nx") ∧
      parse_frontmatter (fun _ => none) (str "---\na\n---\n") =
        (emptyMetadata, str "---\na\n---\n") := by
  constructor
  · refine (c7_frontmatter_safe_fallback _ _).1 ?_
    rintro ⟨w1, body, w2, rest, _, _, heq⟩
    have hlen := congrArg List.length heq
    have h1 : (str "---\nx").length = 5 := by decide
    have h2 : (str "---").length = 3 := by decide
    rw [h1] at hlen
    simp only [List.length_append, List.length_cons, h2] at hlen
    omega
  · exact (c7_frontmatter_safe_fallback _ _).2 (str "a") []
      (by decide) rfl

/-- C8: a document whose headings (in the post-frontmatter body) are
all at level 2 or deeper fails parsing with the missing-topic
`ValueError`, rather than returning a document. -/
theorem c8_missing_topic (yamlDecode : Str → Option Metadata)
    (content path : Str)
    (h : ∀ hh ∈ extract_headings
        (parse_frontmatter yamlDecode content).2, 2 ≤ hh.level) :
    parse_markdown_content yamlDecode content path =
      .error (str "No H1 heading found in " ++ path) := by
  have hfind : (extract_headings
      (parse_frontmatter yamlDecode content).2).find?
        (fun hh => hh.level = 1) = none :=
    List.find?_eq_none.mpr (fun hh hm => by
      have h2 := h hh hm
      simp only [decide_eq_true_eq]
      omega)
  unfold parse_markdown_content
  dsimp only
  rw [hfind]
  rfl

/-- Witness for C8 on a concrete level-2-only document. -/
theorem c8_missing_topic_witness :
    parse_markdown_content (fun _ => none) (str "## Foo\n- x")
        (str "f.md") =
      .error (str "No H1 heading found in " ++ str "f.md") :=
  c8_missing_topic (fun _ => none) (str "## Foo\n- x") (str "f.md")
    (by decide)

/-! ### Heading regex characterization -/

theorem space_ne_hash {c : Char} (h : pyIsSpace c = true) : c ≠ '#' := by
  rcases pyIsSpace_cases h with rfl | rfl | rfl | rfl | rfl | rfl <;>
    decide

theorem take_takeWhile_length (p : Char → Bool) : ∀ l : Str,
    l.take (l.takeWhile p).length = l.takeWhile p
  | [] => rfl
  | c :: l => by
    rw [List.takeWhile_cons]
    by_cases h : p c
    · rw [if_pos h]
      simp only [List.length_cons, List.take_succ_cons]
      rw [take_takeWhile_length p l]
    · rw [if_neg h]
      rfl

theorem drop_takeWhile_length (p : Char → Bool) : ∀ l : Str,
    l.drop (l.takeWhile p).length = l.dropWhile p
  | [] => rfl
  | c :: l => by
    rw [List.takeWhile_cons, List.dropWhile_cons]
    by_cases h : p c
    · rw [if_pos h, if_pos h]
      simp only [List.length_cons, List.drop_succ_cons]
      exact drop_takeWhile_length p l
    · rw [if_neg h, if_neg h]
      rfl

theorem wsPlusText_some_iff {rest : Str} :
    (wsPlusText rest).isSome = true ↔
      ∃ w t, w ≠ [] ∧ (∀ c ∈ w, pyIsSpace c = true) ∧ t ≠ [] ∧
        rest = w ++ t := by
  constructor
  · intro h
    unfold wsPlusText at h
    split at h
    · simp at h
    · rename_i hm0
      split at h
      · rename_i hlt
        refine ⟨rest.takeWhile pyIsSpace,
          rest.drop (rest.takeWhile pyIsSpace).length,
          fun hn => hm0 (by rw [hn]; rfl), ?_, ?_, ?_⟩
        · intro c hc
          exact List.mem_takeWhile_imp hc
        · apply List.length_pos.mp
          rw [List.length_drop]
          omega
        · conv_lhs => rw [← List.take_append_drop
            (rest.takeWhile pyIsSpace).length rest]
          rw [take_takeWhile_length]
      · split at h
        · rename_i hge h2
          have hle : (rest.takeWhile pyIsSpace).length ≤ rest.length :=
            (List.takeWhile_prefix pyIsSpace).length_le
          have heq : rest.takeWhile pyIsSpace = rest :=
            (List.takeWhile_prefix pyIsSpace).eq_of_length (by omega)
          refine ⟨rest.take ((rest.takeWhile pyIsSpace).length - 1),
            rest.drop ((rest.takeWhile pyIsSpace).length - 1),
            ?_, ?_, ?_, (List.take_append_drop _ _).symm⟩
          · apply List.length_pos.mp
            rw [List.length_take]
            omega
          · intro c hc
            have hcr : c ∈ rest := List.take_subset _ _ hc
            rw [← heq] at hcr
            exact List.mem_takeWhile_imp hcr
          · apply List.length_pos.mp
            rw [List.length_drop]
            omega
        · simp at h
  · rintro ⟨w, t, hw, hws, ht, rfl⟩
    have htw : (w ++ t).takeWhile pyIsSpace =
        w ++ t.takeWhile pyIsSpace :=
      List.takeWhile_append_of_pos hws
    have hlw : 0 < w.length := List.length_pos.mpr hw
    have hlt : 0 < t.length := List.length_pos.mpr ht
    have htle : (t.takeWhile pyIsSpace).length ≤ t.length :=
      (List.takeWhile_prefix pyIsSpace).length_le
    unfold wsPlusText
    rw [htw]
    split
    · rename_i h0
      exfalso
      rw [List.length_append] at h0
      omega
    · split
      · rfl
      · split
        · rfl
        · rename_i h1 h2
          exfalso
          rw [List.length_append] at h1 h2
          rw [List.length_append] at h1
          omega

theorem takeWhile_hash_replicate (s : Str) :
    s.takeWhile (· = '#') =
      List.replicate (s.takeWhile (· = '#')).length '#' := by
  apply List.eq_replicate_iff.mpr
  exact ⟨rfl, fun b hb => by simpa using List.mem_takeWhile_imp hb⟩

theorem headingMatch_isSome_iff {s : Str} :
    (headingMatch s).isSome = true ↔ HeadingShape s := by
  unfold headingMatch
  constructor
  · intro h
    split at h
    · rename_i hk
      have hws : (wsPlusText
          (s.drop (s.takeWhile (· = '#')).length)).isSome = true := by
        cases hwp : wsPlusText (s.drop (s.takeWhile (· = '#')).length)
            with
        | none => rw [hwp] at h; simp at h
        | some t => rfl
      obtain ⟨w, t, hw, hwsp, ht, hsplit⟩ := wsPlusText_some_iff.mp hws
      refine ⟨(s.takeWhile (· = '#')).length, w, t, hk.1, hk.2, hw,
        hwsp, ht, ?_⟩
      conv_lhs => rw [← List.takeWhile_append_dropWhile
        (p := (· = '#')) (l := s)]
      rw [← takeWhile_hash_replicate]
      have hdw : s.dropWhile (· = '#') = w ++ t := by
        rw [← drop_takeWhile_length ((· = '#')) s]
        exact hsplit
      rw [hdw, List.append_assoc]
    · simp at h
  · rintro ⟨k, w, t, hk1, hk6, hw, hws, ht, rfl⟩
    have htw : (List.replicate k '#' ++ w ++ t).takeWhile (· = '#') =
        List.replicate k '#' := by
      rw [List.append_assoc, List.takeWhile_append_of_pos
        (fun a ha => by simpa using List.eq_of_mem_replicate ha)]
      cases w with
      | nil => exact absurd rfl hw
      | cons wh w' =>
          rw [List.cons_append, List.takeWhile_cons,
            if_neg (by
              simpa using space_ne_hash
                (hws wh (List.mem_cons_self wh w')))]
          simp
    split
    · rename_i hcond
      have hdrop : (List.replicate k '#' ++ w ++ t).drop
          ((List.replicate k '#' ++ w ++ t).takeWhile
            (· = '#')).length = w ++ t := by
        rw [htw, List.length_replicate, List.append_assoc]
        exact List.drop_left' (List.length_replicate k '#')
      rw [hdrop]
      have hsome := wsPlusText_some_iff.mpr ⟨w, t, hw, hws, ht, rfl⟩
      cases hwp : wsPlusText (w ++ t) with
      | none => rw [hwp] at hsome; simp at hsome
      | some x => rfl
    · rename_i hcond
      exfalso
      apply hcond
      rw [htw, List.length_replicate]
      exact ⟨hk1, hk6⟩

/-! ### Line-splitting lemmas -/

theorem splitOnNl_singleton : ∀ {l : Str}, '\n' ∉ l → splitOnNl l = [l]
  | [], _ => rfl
  | c :: rest, h => by
      have hc : c ≠ '\n' := fun hx => h (hx ▸ List.mem_cons_self c rest)
      have hn : '\n' ∉ rest := fun hx => h (List.mem_cons_of_mem c hx)
      unfold splitOnNl
      rw [if_neg hc, splitOnNl_singleton hn]

theorem splitOnNl_no_nl : ∀ {s l : Str}, l ∈ splitOnNl s → '\n' ∉ l := by
  intro s
  induction s with
  | nil =>
      intro l h
      obtain rfl := List.mem_singleton.mp h
      simp
  | cons c rest ih =>
      intro l h
      unfold splitOnNl at h
      by_cases hc : c = '\n'
      · rw [if_pos hc] at h
        rcases List.mem_cons.mp h with rfl | h2
        · simp
        · exact ih h2
      · rw [if_neg hc] at h
        cases hs : splitOnNl rest with
        | nil =>
            rw [hs] at h
            obtain rfl := List.mem_singleton.mp h
            intro hm
            rcases List.mem_singleton.mp hm with rfl
            exact hc rfl
        | cons x xs =>
            rw [hs] at h
            rcases List.mem_cons.mp h with rfl | h2
            · intro hm
              rcases List.mem_cons.mp hm with h3 | h3
              · exact hc h3.symm
              · exact ih (by rw [hs]; exact List.mem_cons_self x xs) h3
            · exact ih (by rw [hs]; exact List.mem_cons_of_mem x h2)

/-- C9 counterexample: a line with leading whitespace before the first
`#` *does* produce a `HeadingInfo` record (the code matches the regex
against the stripped line), contradicting the claim as stated. -/
theorem c9_heading_counterexample :
    extract_headings (str "  # Foo") =
      [{ level := 1, text := str "Foo", clean_text := str "Foo",
         tags := [], line_number := 1 }] := by decide

/-- C9 (amended): heading recognition applies to the
whitespace-stripped line: a (newline-free) line yields a heading record
exactly when its stripped form consists of 1–6 `#` characters, at least
one whitespace character, and non-empty remaining text; seven or more
hashes or missing whitespace still yield none, but surrounding
whitespace on the line is tolerated. -/
theorem c9_heading_recognition_amended (line : Str)
    (hnl : '\n' ∉ line) :
    extract_headings line ≠ [] ↔ HeadingShape (pyStrip line) := by
  unfold extract_headings
  rw [splitOnNl_singleton hnl]
  simp only [List.length_cons, List.length_nil, List.range_succ,
    List.range_zero, List.nil_append, List.zip_cons_cons,
    List.zip_nil_right, List.foldl_cons, List.foldl_nil]
  cases hm : headingMatch (pyStrip line) with
  | none =>
      constructor
      · intro hcontra
        exact absurd rfl hcontra
      · intro hs
        have h2 := headingMatch_isSome_iff.mpr hs
        rw [hm] at h2
        simp at h2
  | some p =>
      obtain ⟨lvl, txt⟩ := p
      constructor
      · intro _
        exact headingMatch_isSome_iff.mp (by rw [hm]; rfl)
      · intro _
        simp

/-- Witness for C9's amended recognition rule at a concrete line with
leading whitespace. -/
theorem c9_heading_recognition_amended_witness :
    extract_headings (str " ## Bar") ≠ [] :=
  (c9_heading_recognition_amended (str " ## Bar") (by decide)).mpr
    ⟨2, [' '], str "Bar", by decide, by decide, by decide, by decide,
      by decide, by decide⟩

/-! ### Newline-freedom through the item pipeline -/

theorem removeAllF_subset : ∀ (fuel : Nat) {pat l : Str} {c : Char},
    c ∈ removeAllF fuel pat l → c ∈ l := by
  intro fuel
  induction fuel with
  | zero =>
      intro pat l c h
      cases l with
      | nil => simp [removeAllF] at h
      | cons a rest => simp only [removeAllF] at h; exact h
  | succ f ih =>
      intro pat l c h
      cases l with
      | nil => simp [removeAllF] at h
      | cons a rest =>
          unfold removeAllF at h
          split at h
          · exact List.drop_subset _ _ (ih h)
          · rcases List.mem_cons.mp h with rfl | h2
            · exact List.mem_cons.mpr (Or.inl rfl)
            · exact List.mem_cons_of_mem a (ih h2)

theorem removeAll_subset {pat l : Str} {c : Char}
    (h : c ∈ removeAll pat l) : c ∈ l :=
  removeAllF_subset _ h

theorem scanTagsF_snd_subset : ∀ (fuel : Nat) {l : Str} {c : Char},
    c ∈ (scanTagsF fuel l).2 → c ∈ l := by
  intro fuel
  induction fuel with
  | zero =>
      intro l c h
      cases l with
      | nil => simp [scanTagsF] at h
      | cons a rest => simp only [scanTagsF] at h; exact h
  | succ f ih =>
      intro l c h
      cases l with
      | nil => simp [scanTagsF] at h
      | cons a rest =>
          unfold scanTagsF at h
          split at h
          · dsimp only at h
            exact List.mem_cons_of_mem a
              (List.drop_subset _ _ (ih h))
          · dsimp only at h
            rcases List.mem_cons.mp h with rfl | h2
            · exact List.mem_cons.mpr (Or.inl rfl)
            · exact List.mem_cons_of_mem a (ih h2)

theorem joinWithSpace_no_nl : ∀ {ls : List Str},
    (∀ l ∈ ls, '\n' ∉ l) → '\n' ∉ joinWithSpace ls
  | [], _ => by simp [joinWithSpace]
  | [l], h => by
      simpa [joinWithSpace] using h l (List.mem_cons_self l [])
  | l :: l' :: ls, h => by
      unfold joinWithSpace
      intro hx
      rcases List.mem_append.mp hx with h2 | h2
      · exact h l (List.mem_cons_self l (l' :: ls)) h2
      · rcases List.mem_cons.mp h2 with h3 | h3
        · exact absurd h3.symm (by decide)
        · exact joinWithSpace_no_nl
            (fun m hm => h m (List.mem_cons_of_mem l hm)) h3

theorem foldl_removeAll_no_nl : ∀ (urls : List Str) {acc : Str},
    '\n' ∉ acc →
    '\n' ∉ urls.foldl
      (fun t u => removeAll (str "<>") (removeAll u t)) acc := by
  intro urls
  induction urls with
  | nil => intro acc h; exact h
  | cons u us ih =>
      intro acc h
      rw [List.foldl_cons]
      exact ih fun hx => h (removeAll_subset (removeAll_subset hx))

theorem parse_item_content_desc {t : Str} (h : '\n' ∉ t) :
    (parse_item_content t).2.1 = [] := by
  have hnl : '\n' ∉ (scanTags ((extract_urls t).foldl
      (fun t u => removeAll (str "<>") (removeAll u t)) t)).2 :=
    fun hx => (foldl_removeAll_no_nl (extract_urls t) h)
      (scanTagsF_snd_subset _ hx)
  unfold parse_item_content
  dsimp only
  rw [splitOnNl_singleton hnl]
  by_cases hp : pyStrip ((scanTags ((extract_urls t).foldl
      (fun t u => removeAll (str "<>") (removeAll u t)) t)).2) = []
  · simp [hp]
  · simp [hp, joinWithSpace]

theorem wsPlusText_subset {rest t : Str} (h : wsPlusText rest = some t) :
    ∀ c ∈ t, c ∈ rest := by
  unfold wsPlusText at h
  split at h
  · simp at h
  · split at h
    · injection h with h
      rw [← h]
      exact fun c hc => List.drop_subset _ _ hc
    · split at h
      · injection h with h
        rw [← h]
        exact fun c hc => List.drop_subset _ _ hc
      · simp at h

theorem bulletMatch_no_nl {line t : Str} (hline : '\n' ∉ line)
    (h : bulletMatch line = some t) : '\n' ∉ t := by
  unfold bulletMatch at h
  cases hd : line.dropWhile pyIsSpace with
  | nil => rw [hd] at h; simp at h
  | cons c rest =>
      rw [hd] at h
      dsimp only at h
      by_cases hc : c = '-' ∨ c = '*'
      · rw [if_pos hc] at h
        intro hx
        have h2 := wsPlusText_subset h '\n' hx
        exact hline (List.dropWhile_subset _
          (by rw [hd]; exact List.mem_cons_of_mem c h2))
      · rw [if_neg hc] at h
        simp at h

theorem extract_step_inv {headings : List HeadingInfo}
    {st : List RawItem × Option RawItem × List HeadingInfo}
    {p : Str × Nat} (hline : '\n' ∉ p.1)
    (hinv : (∀ it ∈ st.1, ∀ l ∈ it.raw_text, '\n' ∉ l) ∧
      ∀ it, st.2.1 = some it → ∀ l ∈ it.raw_text, '\n' ∉ l) :
    (∀ it ∈ (extractItemsStep headings st p).1,
        ∀ l ∈ it.raw_text, '\n' ∉ l) ∧
      ∀ it, (extractItemsStep headings st p).2.1 = some it →
        ∀ l ∈ it.raw_text, '\n' ∉ l := by
  obtain ⟨items, cur, ctx⟩ := st
  unfold extractItemsStep
  dsimp only
  cases hb : bulletMatch p.1 with
  | some t =>
      dsimp only
      constructor
      · cases cur with
        | none => exact hinv.1
        | some it =>
            intro it2 h2
            rcases List.mem_append.mp h2 with h3 | h3
            · exact hinv.1 it2 h3
            · obtain rfl := List.mem_singleton.mp h3
              exact hinv.2 it2 rfl
      · intro it2 h2
        injection h2 with h2
        rw [← h2]
        intro l hl
        obtain rfl := List.mem_singleton.mp hl
        exact bulletMatch_no_nl hline hb
  | none =>
      cases cur with
      | none => exact hinv
      | some it =>
          dsimp only
          by_cases hs : pyStrip p.1 ≠ []
          · rw [if_pos hs]
            by_cases hi : startsIndent p.1 = true
            · rw [if_pos hi]
              refine ⟨hinv.1, ?_⟩
              intro it2 h2
              injection h2 with h2
              rw [← h2]
              intro l hl
              rcases List.mem_append.mp hl with h3 | h3
              · exact hinv.2 it rfl l h3
              · obtain rfl := List.mem_singleton.mp h3
                exact fun hx => hline (mem_pyStrip hx)
            · rw [if_neg hi]
              exact hinv
          · rw [if_neg hs]
            exact hinv

theorem extract_fold_inv {headings : List HeadingInfo} :
    ∀ {ps : List (Str × Nat)}
      {st : List RawItem × Option RawItem × List HeadingInfo},
      (∀ p ∈ ps, '\n' ∉ p.1) →
      ((∀ it ∈ st.1, ∀ l ∈ it.raw_text, '\n' ∉ l) ∧
        ∀ it, st.2.1 = some it → ∀ l ∈ it.raw_text, '\n' ∉ l) →
      (∀ it ∈ (ps.foldl (extractItemsStep headings) st).1,
          ∀ l ∈ it.raw_text, '\n' ∉ l) ∧
        ∀ it, (ps.foldl (extractItemsStep headings) st).2.1 = some it →
          ∀ l ∈ it.raw_text, '\n' ∉ l := by
  intro ps
  induction ps with
  | nil => intro st _ hinv; exact hinv
  | cons p ps ih =>
      intro st hps hinv
      rw [List.foldl_cons]
      exact ih (fun q hq => hps q (List.mem_cons_of_mem p hq))
        (extract_step_inv (hps p (List.mem_cons_self p ps)) hinv)

theorem extract_list_items_no_nl {content : Str}
    {headings : List HeadingInfo} {it : RawItem}
    (hit : it ∈ extract_list_items content headings) :
    ∀ l ∈ it.raw_text, '\n' ∉ l := by
  unfold extract_list_items at hit
  dsimp only at hit
  have hps : ∀ p ∈ (splitOnNl content).zip
      (List.range (splitOnNl content).length), '\n' ∉ p.1 :=
    fun p hp => splitOnNl_no_nl (List.of_mem_zip hp).1
  have hinv := @extract_fold_inv headings
    ((splitOnNl content).zip (List.range (splitOnNl content).length))
    ([], none, []) hps (by constructor <;> simp)
  cases hr : (((splitOnNl content).zip
      (List.range (splitOnNl content).length)).foldl
        (extractItemsStep headings) ([], none, [])).2.1 with
  | some x =>
      rw [hr] at hit
      rcases List.mem_append.mp hit with h3 | h3
      · exact hinv.1 it h3
      · obtain rfl := List.mem_singleton.mp h3
        exact hinv.2 it hr
  | none =>
      rw [hr] at hit
      exact hinv.1 it hit

theorem process_item_desc {raw : RawItem}
    {headings : List HeadingInfo} {fmtags : List Str}
    {topic sf : Str} {item : AwesomeListItem}
    (hnl : ∀ l ∈ raw.raw_text, '\n' ∉ l)
    (h : process_item raw headings fmtags topic sf = some item) :
    item.description = [] := by
  unfold process_item at h
  dsimp only at h
  split at h
  · simp at h
  · injection h with h
    rw [← h]
    dsimp only
    rw [parse_item_content_desc (joinWithSpace_no_nl hnl)]
    rfl

/-- C10: every `AwesomeListItem` the assembler produces has an empty
description — the raw lines are joined with a single space before
content parsing, so the split on newlines yields at most one non-empty
segment, which becomes the title, leaving nothing for the
description. -/
theorem c10_description_empty (yamlDecode : Str → Option Metadata)
    (content path : Str) (doc : AwesomeList)
    (h : parse_markdown_content yamlDecode content path =
      Except.ok doc) :
    ∀ item ∈ doc.items, item.description = [] := by
  unfold parse_markdown_content at h
  dsimp only at h
  split at h
  · simp at h
  · injection h with h
    rw [← h]
    dsimp only
    intro item hmem
    obtain ⟨raw, hraw, hproc⟩ := List.mem_filterMap.mp hmem
    exact process_item_desc (extract_list_items_no_nl hraw) hproc

/-- Witness for C10 on a concrete successful parse. -/
theorem c10_description_empty_witness :
    ({ title := str "x y", link := [], description := [], tags := [],
       sections := [], topic := str "T", source_file := str "f.md",
       line_number := 2 } : AwesomeListItem).description = [] :=
  c10_description_empty (fun _ => none) (str "# T\n- x y")
    (str "f.md")
    { topic := str "T",
      items := [{ title := str "x y", link := [], description := [],
                  tags := [], sections := [], topic := str "T",
                  source_file := str "f.md", line_number := 2 }],
      source_file := str "f.md" }
    (by decide) _ (by decide)

/-- C1: the end-to-end scenario — frontmatter `tags: [llms]`, topic
`# LLMs`, section `## Models #ai`, bullet
`- Gemma <https://x.com/gemma> #google` — produces exactly one item
with title `Gemma`, link `https://x.com/gemma`, tags
`["google","ai","llms"]` in that order, sections `["Models"]`, and
topic `LLMs`, for any YAML decoder that decodes the block as
`{tags: [llms]}`. -/
theorem c1_end_to_end (yamlDecode : Str → Option Metadata)
    (hdec : yamlDecode (str "tags: [llms]") = some ⟨[str "llms"]⟩) :
    parse_markdown_content yamlDecode c1Content (str "test.md") =
      Except.ok { topic := str "LLMs", items := [c1Item],
                  source_file := str "test.md" } := by
  have hfm : parse_frontmatter yamlDecode c1Content =
      (⟨[str "llms"]⟩, c1Body) := by
    unfold parse_frontmatter
    rw [show fmMatch c1Content = some (str "tags: [llms]", c1Body)
      from by decide]
    dsimp only
    rw [hdec]
  unfold parse_markdown_content
  dsimp only
  rw [hfm]
  decide

/-- Witness for C1 with the concrete scenario decoder. -/
theorem c1_end_to_end_witness :
    parse_markdown_content llmsDecoder c1Content (str "test.md") =
      Except.ok { topic := str "LLMs", items := [c1Item],
                  source_file := str "test.md" } :=
  c1_end_to_end llmsDecoder (by decide)

/-- C4 counterexample: for the bullet text `[Gemma](https://x.com)` —
exactly one URL, appearing only in markdown link syntax — the returned
link is *not* exactly the URL portion inside the parentheses. -/
theorem c4_markdown_link_counterexample :
    (parse_item_content (str "[Gemma](https://x.com)")).2.2.1 ≠
      str "https://x.com" := by decide

/-! ### URL-scan lemmas for the markdown-link correction -/

theorem space_ne_gt {c : Char} (h : pyIsSpace c = true) : c ≠ '>' := by
  rcases pyIsSpace_cases h with rfl | rfl | rfl | rfl | rfl | rfl <;>
    decide

theorem space_not_bareClass {c : Char} (h : pyIsSpace c = true) :
    bareClass c = false := by
  simp [bareClass, h]

theorem angleTryAt_none_of_ne {c : Char} {rest : Str} (h : c ≠ '<') :
    angleTryAt (c :: rest) = none := by
  unfold angleTryAt
  dsimp only
  rw [if_neg h]

theorem angle_scan_empty : ∀ (fuel : Nat) {l : Str},
    (∀ c ∈ l, c ≠ '<') → scanAllF angleTryAt fuel l = [] := by
  intro fuel
  induction fuel with
  | zero => intro l _; cases l <;> rfl
  | succ f ih =>
      intro l h
      cases l with
      | nil => rfl
      | cons c rest =>
          unfold scanAllF
          rw [angleTryAt_none_of_ne (h c (List.mem_cons_self c rest))]
          exact ih fun d hd => h d (List.mem_cons_of_mem c hd)

theorem matchScheme_https (r : Str) :
    matchScheme (str "https://" ++ r) = some 8 := by
  unfold matchScheme
  rw [if_pos (show (str "https://" ++ r).take 8 = str "https://" from
    List.take_left' rfl)]

theorem matchScheme_http (r : Str) :
    matchScheme (str "http://" ++ r) = some 7 := by
  have hne : ¬ (str "http://" ++ r).take 8 = str "https://" := by
    cases r with
    | nil => decide
    | cons c r' =>
        intro h
        have h' : ('h' :: 't' :: 't' :: 'p' :: ':' :: '/' :: '/' ::
              [c] : Str) =
            ('h' :: 't' :: 't' :: 'p' :: 's' :: ':' :: '/' :: '/' ::
              [] : Str) := h
        simp at h'
  unfold matchScheme
  rw [if_neg hne, if_pos (show (str "http://" ++ r).take 7 =
    str "http://" from List.take_left' rfl)]

theorem bareTryAt_none {prev : Option Char} {l : Str}
    (h : matchScheme l = none) : bareTryAt prev l = none := by
  unfold bareTryAt
  split
  · rfl
  · rw [h]

theorem bareScanF_step_none {fuel : Nat} {prev : Option Char}
    {c : Char} {rest : Str} (h : bareTryAt prev (c :: rest) = none) :
    bareScanF (fuel + 1) prev (c :: rest) =
      bareScanF fuel (some c) rest := by
  conv_lhs => unfold bareScanF
  rw [h]

theorem bareScanF_skip : ∀ (xs : Str) (fuel : Nat) (prev : Option Char)
    (ys : Str),
    (∀ i, i < xs.length → matchScheme ((xs ++ ys).drop i) = none) →
    bareScanF (xs.length + fuel) prev (xs ++ ys) =
      bareScanF fuel (if xs = [] then prev else xs.getLast?) ys := by
  intro xs
  induction xs with
  | nil => intro fuel prev ys _; simp
  | cons x xs' ih =>
      intro fuel prev ys h
      have hlen : (x :: xs').length + fuel = (xs'.length + fuel) + 1 :=
        by simp [List.length_cons]; omega
      rw [hlen, List.cons_append]
      have h0 := h 0 (by simp)
      rw [List.drop_zero, List.cons_append] at h0
      rw [bareScanF_step_none (bareTryAt_none h0)]
      have h' : ∀ i, i < xs'.length →
          matchScheme ((xs' ++ ys).drop i) = none := by
        intro i hi
        have h1 := h (i + 1) (by simp; omega)
        rwa [List.cons_append, List.drop_succ_cons] at h1
      rw [ih fuel (some x) ys h']
      cases xs' with
      | nil => simp
      | cons y ys' => simp [List.getLast?_cons_cons]

/-- If every character of `l1` satisfies `p`, `takeWhile` passes through
`l1` and continues on `l2`. -/
theorem takeWhile_all {p : Char → Bool} :
    ∀ {l1 : Str} (l2 : Str), (∀ c ∈ l1, p c = true) →
      (l1 ++ l2).takeWhile p = l1 ++ l2.takeWhile p := by
  intro l1
  induction l1 with
  | nil => intro l2 _; rfl
  | cons c rest ih =>
      intro l2 h
      rw [List.cons_append,
        List.takeWhile_cons_of_pos (h c (List.mem_cons_self c rest)),
        ih l2 (fun d hd => h d (List.mem_cons_of_mem c hd)),
        List.cons_append]

/-- A bare-URL match attempt at the start of `sch ++ tl ++ ")" ++ post`
with the closing parenthesis at the end of the text or before
whitespace: the greedy class run swallows the parenthesis and the
negative lookahead sees no `>`, so the capture runs through `)`. -/
theorem bareTryAt_url {prev : Option Char} {sch tl post : Str}
    (hprev : prev ≠ some '<')
    (hms : matchScheme (sch ++ (tl ++ ')' :: post)) = some sch.length)
    (htl : ∀ c ∈ tl, bareClass c = true)
    (hpost : post = [] ∨ ∃ c rest, post = c :: rest ∧ pyIsSpace c = true) :
    bareTryAt prev (sch ++ (tl ++ ')' :: post)) =
      some (sch ++ (tl ++ [')']), post) := by
  have hdrop : (sch ++ (tl ++ ')' :: post)).drop sch.length
      = tl ++ ')' :: post := List.drop_left sch (tl ++ ')' :: post)
  have hrun : (tl ++ ')' :: post).takeWhile bareClass = tl ++ [')'] := by
    rw [takeWhile_all (')' :: post) htl]
    congr 1
    rw [List.takeWhile_cons_of_pos (show bareClass ')' = true by decide)]
    rcases hpost with rfl | ⟨c, rest, rfl, hc⟩
    · rfl
    · simp [List.takeWhile_cons, space_not_bareClass hc]
  have hdrop2 : (tl ++ ')' :: post).drop (tl ++ [')']).length = post := by
    rw [show tl ++ ')' :: post = (tl ++ [')']) ++ post by simp]
    exact List.drop_left _ _
  have hhd : ¬ post.head? = some '>' := by
    rcases hpost with rfl | ⟨c, rest, rfl, hc⟩
    · simp
    · simp only [List.head?_cons, Option.some.injEq]
      exact space_ne_gt hc
  unfold bareTryAt
  rw [if_neg hprev, hms]
  dsimp only
  rw [hdrop, hrun]
  rw [if_neg (show ¬ tl ++ [')'] = [] by simp), hdrop2, if_neg hhd,
    List.take_left]

/-- A successful `bareTryAt` at the scan position emits its URL first. -/
theorem bareScanF_head {fuel : Nat} {prev : Option Char} {l url rem : Str}
    (h : bareTryAt prev l = some (url, rem)) (hl : l ≠ []) :
    ∃ t, bareScanF (fuel + 1) prev l = url :: t := by
  cases l with
  | nil => exact absurd rfl hl
  | cons c rest =>
      refine ⟨bareScanF fuel
        ((c :: rest).take ((c :: rest).length - rem.length)).getLast? rem, ?_⟩
      conv_lhs => unfold bareScanF
      rw [h]

/-- The link component of `parse_item_content` is the head of
`extract_urls` (or empty when there is none), whatever the rest of the
parse does. -/
theorem parse_item_content_link (t : Str) :
    (parse_item_content t).2.2.1 = (extract_urls t).headD [] := by
  unfold parse_item_content
  dsimp only
  split <;> rfl

/-- C4 (amended): for every item text of the shape
`pre ++ "[" ++ label ++ "](" ++ sch ++ tl ++ ")" ++ post` — a markdown
link whose URL `sch ++ tl` has an `http`/`https` scheme followed by
bare-class characters, with no `<` anywhere in the text, no scheme match
starting before the URL, and the closing parenthesis at the end of the
text or followed by whitespace — `parse_item_content` returns the URL
portion together with the trailing `)` as the link: the bare-URL pattern
`(?<!<)(https?://[^\s<>]+)(?![>])` runs before the markdown-link pattern
and its capture runs through the closing parenthesis. -/
theorem c4_markdown_link_amended (pre label tl post sch : Str)
    (hsch : sch = str "https://" ∨ sch = str "http://")
    (hlt : ∀ c ∈ (pre ++ '[' :: label ++ [']', '(']) ++
        (sch ++ (tl ++ ')' :: post)), c ≠ '<')
    (htl : ∀ c ∈ tl, bareClass c = true)
    (hpre : ∀ i, i < (pre ++ '[' :: label ++ [']', '(']).length →
        matchScheme (((pre ++ '[' :: label ++ [']', '(']) ++
          (sch ++ (tl ++ ')' :: post))).drop i) = none)
    (hpost : post = [] ∨ ∃ c rest, post = c :: rest ∧ pyIsSpace c = true) :
    (parse_item_content ((pre ++ '[' :: label ++ [']', '(']) ++
        (sch ++ (tl ++ ')' :: post)))).2.2.1 = sch ++ (tl ++ [')']) := by
  have hA : pre ++ '[' :: label ++ [']', '('] =
      (pre ++ '[' :: label ++ [']']) ++ ['('] := by simp
  have hms : matchScheme (sch ++ (tl ++ ')' :: post)) = some sch.length := by
    rcases hsch with rfl | rfl
    · have h8 : (str "https://").length = 8 := rfl
      rw [h8]
      exact matchScheme_https (tl ++ ')' :: post)
    · have h7 : (str "http://").length = 7 := rfl
      rw [h7]
      exact matchScheme_http (tl ++ ')' :: post)
  have hTry : bareTryAt (some '(') (sch ++ (tl ++ ')' :: post)) =
      some (sch ++ (tl ++ [')']), post) :=
    bareTryAt_url (by decide) hms htl hpost
  have hBne : ¬ sch ++ (tl ++ ')' :: post) = [] := by simp
  have hlen : ((pre ++ '[' :: label ++ [']', '(']) ++
      (sch ++ (tl ++ ')' :: post))).length =
      (pre ++ '[' :: label ++ [']', '(']).length +
        (sch ++ (tl ++ ')' :: post)).length := List.length_append _ _
  have hAne : ¬ pre ++ '[' :: label ++ [']', '('] = [] := by
    rw [hA]; simp
  have hBlen : (sch ++ (tl ++ ')' :: post)).length =
      (sch.length + (tl.length + post.length)) + 1 := by
    simp only [List.length_append, List.length_cons]
    omega
  rw [parse_item_content_link]
  unfold extract_urls
  rw [angle_scan_empty _ hlt, hlen,
    bareScanF_skip (pre ++ '[' :: label ++ [']', '('])
      ((sch ++ (tl ++ ')' :: post)).length) none
      (sch ++ (tl ++ ')' :: post)) hpre,
    if_neg hAne, hA, List.getLast?_concat, hBlen]
  obtain ⟨t, ht⟩ := @bareScanF_head (sch.length + (tl.length + post.length))
    (some '(') (sch ++ (tl ++ ')' :: post)) (sch ++ (tl ++ [')'])) post
    hTry hBne
  rw [ht]
  simp

/-- Witness: the concrete item text `[Gemma](https://x.com)` is of the
amended shape and its extracted link is `https://x.com)` — the URL with
the trailing parenthesis. -/
theorem c4_markdown_link_amended_witness :
    ([] ++ '[' :: str "Gemma" ++ [']', '(']) ++
        (str "https://" ++ (str "x.com" ++ ')' :: []))
      = str "[Gemma](https://x.com)" ∧
    (parse_item_content (([] ++ '[' :: str "Gemma" ++ [']', '(']) ++
        (str "https://" ++ (str "x.com" ++ ')' :: [])))).2.2.1
      = str "https://" ++ (str "x.com" ++ [')']) :=
  ⟨by decide,
    c4_markdown_link_amended [] (str "Gemma") (str "x.com") []
      (str "https://") (by decide) (by decide) (by decide) (by decide)
      (Or.inl rfl)⟩
